/-
Verification of the poirot concurrent hash map (src/lib.rs) against its
natural-language specification.

Shallow embedding: each segment's `std::collections::HashMap` is modelled as an
association list with no duplicate keys together with the `BuildHasher` value it
was constructed with and its initial capacity.  `RwLock` is erased: in a
single-threaded (sequential) execution every operation is the pure function on
the map state obtained by inlining the critical section.  `usize` and `u64` are
modelled as `Nat` with explicit `% 2 ^ 64` where the 64-bit width matters
(the target platform of the routing code is 64-bit: `size_of::<usize>() * 8 = 64`).
The generic hasher type `B` stays abstract; `hashOf : B → K → Nat` gives the
64-bit digest `build_hasher().hash(key).finish()` computed by a builder, and
`bdefault : B` stands for `<B as Default>::default()`.
-/
import Mathlib

set_option autoImplicit false
set_option linter.unusedSectionVars false

namespace Poirot

/-! ### Association-list model of the per-segment `HashMap` -/

variable {K V B σ : Type} [DecidableEq K]

/-- Lookup in an association list: value of the first entry whose key is `k`.
Models `HashMap::get` on a table whose keys are distinct. -/
def assocGet? : List (K × V) → K → Option V
  | [], _ => none
  | (k0, v0) :: rest, k => if k0 = k then some v0 else assocGet? rest k

/-- Insert into an association list: replace the value in place if the key is
present (the stored key is kept, as `HashMap::insert` keeps the old key),
otherwise append a new entry.  Models `HashMap::insert`'s state change. -/
def assocInsert : List (K × V) → K → V → List (K × V)
  | [], k, v => [(k, v)]
  | (k0, v0) :: rest, k, v =>
      if k0 = k then (k0, v) :: rest else (k0, v0) :: assocInsert rest k v

/-- Remove the first entry whose key is `k`.  Models `HashMap::remove`'s state
change on a table whose keys are distinct. -/
def assocRemove : List (K × V) → K → List (K × V)
  | [], _ => []
  | (k0, v0) :: rest, k => if k0 = k then rest else (k0, v0) :: assocRemove rest k

/-- One segment: the `HashMap<K, V, B>` it protects, modelled by the hasher the
table was created with (`HashMap::with_capacity_and_hasher`'s second argument),
the capacity it was created with, and its entries. -/
structure HashMapM (K V B : Type) where
  hash_builder : B
  capacity : Nat
  entries : List (K × V)
deriving DecidableEq

/-! ### The concurrent map -/

/-- `ConcurrentHashMap<K, V, B>`: a vector of lock-protected segments plus the
builder used for routing hashes (field `hash_builder` of the Rust struct). -/
structure ConcurrentHashMap (K V B : Type) where
  segments : List (HashMapM K V B)
  hash_builder : B
deriving DecidableEq

/-- Count of trailing zero bits, fuelled so that the kernel can evaluate it
(64 units of fuel cover every 64-bit value). -/
def ctzFuel : Nat → Nat → Nat
  | 0, _ => 0
  | fuel + 1, n => if n = 0 ∨ n % 2 = 1 then 0 else ctzFuel fuel (n / 2) + 1

/-- Rust `usize::trailing_zeros` on a 64-bit platform: 64 on input 0, the
number of trailing zero bits otherwise. -/
def usizeTrailingZeros (n : Nat) : Nat :=
  if n = 0 then 64 else ctzFuel 64 n

/-- One doubling step of Rust `usize::next_power_of_two`, fuelled so that the
kernel can evaluate it (`n` units of fuel always suffice starting from 1). -/
def npotGo (n : Nat) : Nat → Nat → Nat
  | 0, power => power
  | fuel + 1, power => if power < n then npotGo n fuel (power * 2) else power

/-- The mathematical next power of two: the smallest power of two `≥ n`
(1 on inputs 0 and 1).  This is Rust `usize::next_power_of_two` on inputs
whose result fits in 64 bits; `usizeNextPowerOfTwo` adds the overflow
behaviour of the intrinsic for the remaining inputs. -/
def nextPowerOfTwo (n : Nat) : Nat :=
  npotGo n n 1

/-- Rust `usize::next_power_of_two` on a 64-bit platform, overflow behaviour
included: for `n > 2 ^ 63` the mathematical result does not fit in `usize`;
the release profile wraps it to 0 — the only input class producing 0 — and the
debug profile panics there instead, so 0 doubles as the marker of the
panicking inputs. -/
def usizeNextPowerOfTwo (n : Nat) : Nat :=
  if n ≤ 2 ^ 63 then nextPowerOfTwo n else 0

namespace ConcurrentHashMap

/-- `ConcurrentHashMap::hash`: run the stored builder's hasher over the key and
take the 64-bit `finish()` result. -/
def hash (hashOf : B → K → Nat) (m : ConcurrentHashMap K V B) (k : K) : Nat :=
  hashOf m.hash_builder k % 2 ^ 64

/-- `ConcurrentHashMap::get_segment`: shift the hash right by
`size_of::<usize>() * 8 − segments.len().trailing_zeros()` and mask with
`segments.len() − 1`. -/
def get_segment (m : ConcurrentHashMap K V B) (hash : Nat) : Nat :=
  let shift_size := 64 - usizeTrailingZeros m.segments.length
  ((hash % 2 ^ 64) >>> shift_size) &&& (m.segments.length - 1)

/-- `ConcurrentHashMap::with_options`: round `concurrency_level` up to a power
of two, pre-size each segment to `next_power_of_two(capacity / N)`, and create
each segment's table with `<B as Default>::default()` (argument `bdefault`)
while storing the supplied `hash_builder` in the map for routing.  This is the
non-overflowing path; `with_options_usize` keeps the `usize` overflow paths of
the two roundings, and agrees with this definition whenever
`concurrency_level ≤ 2 ^ 63` and `capacity / N ≤ 2 ^ 63`. -/
def with_options (capacity : Nat) (hash_builder : B) (bdefault : B)
    (concurrency_level : Nat) : ConcurrentHashMap K V B :=
  let concurrency_level := nextPowerOfTwo concurrency_level
  let per_segment_capacity := nextPowerOfTwo (capacity / concurrency_level)
  { segments := List.replicate concurrency_level
      { hash_builder := bdefault, capacity := per_segment_capacity, entries := [] },
    hash_builder := hash_builder }

/-- `ConcurrentHashMap::with_options` with the `usize` overflow paths kept,
`none` modelling a panic of the construction call.  For
`concurrency_level > 2 ^ 63` the rounded segment count overflows: the debug
profile panics inside `next_power_of_two`, the release profile wraps it to 0
and then panics computing `capacity / 0` — no map is produced in either
profile.  The per-segment capacity rounding uses the release wrapping
(capacity-0 segments when `capacity / N > 2 ^ 63`; the debug profile panics
there).  On inputs where neither rounding overflows this agrees with
`with_options`. -/
def with_options_usize (capacity : Nat) (hash_builder : B) (bdefault : B)
    (concurrency_level : Nat) : Option (ConcurrentHashMap K V B) :=
  let concurrency_level := usizeNextPowerOfTwo concurrency_level
  if concurrency_level = 0 then none
  else
    let per_segment_capacity := usizeNextPowerOfTwo (capacity / concurrency_level)
    let seg : HashMapM K V B :=
      { hash_builder := bdefault, capacity := per_segment_capacity, entries := [] }
    some { segments := List.replicate concurrency_level seg,
           hash_builder := hash_builder }

/-- `ConcurrentHashMap::insert`: route to one segment, insert under its write
lock, return the previous value.  The `none` segment branch is unreachable for
maps with at least one segment (`get_segment` is then in bounds). -/
def insert (hashOf : B → K → Nat) (m : ConcurrentHashMap K V B) (k : K) (v : V) :
    ConcurrentHashMap K V B × Option V :=
  let i := m.get_segment (m.hash hashOf k)
  match m.segments[i]? with
  | some seg =>
      ({ m with segments :=
          m.segments.set i { seg with entries := assocInsert seg.entries k v } },
        assocGet? seg.entries k)
  | none => (m, none)

/-- `ConcurrentHashMap::contains`: route to one segment, `contains_key` under
its read lock. -/
def contains (hashOf : B → K → Nat) (m : ConcurrentHashMap K V B) (k : K) : Bool :=
  let i := m.get_segment (m.hash hashOf k)
  match m.segments[i]? with
  | some seg => (assocGet? seg.entries k).isSome
  | none => false

/-- `ConcurrentHashMap::remove`: route to one segment, remove under its write
lock, return the removed value. -/
def remove (hashOf : B → K → Nat) (m : ConcurrentHashMap K V B) (k : K) :
    ConcurrentHashMap K V B × Option V :=
  let i := m.get_segment (m.hash hashOf k)
  match m.segments[i]? with
  | some seg =>
      ({ m with segments :=
          m.segments.set i { seg with entries := assocRemove seg.entries k } },
        assocGet? seg.entries k)
  | none => (m, none)

/-- `ConcurrentHashMap::get`: route to one segment, look the key up under the
read lock; the returned `ReadGuard` is observed through its `Deref`, so the
model returns the referenced value itself (`none` models a missing key). -/
def get (hashOf : B → K → Nat) (m : ConcurrentHashMap K V B) (k : K) : Option V :=
  let i := m.get_segment (m.hash hashOf k)
  match m.segments[i]? with
  | some seg => assocGet? seg.entries k
  | none => none

/-- `ConcurrentHashMap::insert_or_update`: under one write-lock hold,
`entry(key).and_modify(update).or_insert_with(insert)`.  The two `FnOnce`
closures may have side effects, modelled by threading an effect state `σ`:
`ins` is `insert` (called with no arguments, returns the value to store) and
`upd` is `update` (mutates the stored value in place). -/
def insert_or_update (hashOf : B → K → Nat) (m : ConcurrentHashMap K V B) (k : K)
    (ins : σ → V × σ) (upd : V → σ → V × σ) (s : σ) :
    ConcurrentHashMap K V B × σ :=
  let i := m.get_segment (m.hash hashOf k)
  match m.segments[i]? with
  | some seg =>
      match assocGet? seg.entries k with
      | some v =>
          let r := upd v s
          ({ m with segments :=
              m.segments.set i { seg with entries := assocInsert seg.entries k r.1 } },
            r.2)
      | none =>
          let r := ins s
          ({ m with segments :=
              m.segments.set i { seg with entries := assocInsert seg.entries k r.1 } },
            r.2)
  | none => (m, s)

/-- `ConcurrentHashMap::into_iter`: consume the map; `flat_map` over the
segments in index order, unwrapping each lock (`into_inner`) and draining its
table.  The model lists the yielded `(key, value)` pairs in order. -/
def into_iter (m : ConcurrentHashMap K V B) : List (K × V) :=
  (m.segments.map (fun seg => seg.entries)).flatten

/-- Well-formedness maintained by every reachable map: at least one segment and
no duplicate keys within a segment (a `HashMap` invariant). -/
def WF (m : ConcurrentHashMap K V B) : Prop :=
  0 < m.segments.length ∧ ∀ seg ∈ m.segments, (seg.entries.map Prod.fst).Nodup

/-- Routing invariant maintained by every reachable map: every stored key lives
in the segment `get_segment` routes it to. -/
def Routed (hashOf : B → K → Nat) (m : ConcurrentHashMap K V B) : Prop :=
  ∀ i : Nat, ∀ hi : i < m.segments.length, ∀ kv ∈ (m.segments[i]).entries,
    m.get_segment (m.hash hashOf kv.1) = i

instance instDecidableWF (m : ConcurrentHashMap K V B) : Decidable m.WF := by
  unfold WF
  exact inferInstance

instance instDecidableRouted (hashOf : B → K → Nat)
    (m : ConcurrentHashMap K V B) : Decidable (m.Routed hashOf) := by
  unfold Routed
  exact inferInstance

end ConcurrentHashMap

/-! ### The concurrent set -/

/-- `ConcurrentHashSet<K, B>`: a `ConcurrentHashMap<K, (), B>` whose key
presence encodes membership. -/
structure ConcurrentHashSet (K B : Type) where
  table : ConcurrentHashMap K Unit B
deriving DecidableEq

namespace ConcurrentHashSet

/-- `ConcurrentHashSet::with_options`: delegate to the map's constructor. -/
def with_options (capacity : Nat) (hash_builder : B) (bdefault : B)
    (concurrency_level : Nat) : ConcurrentHashSet K B :=
  { table := ConcurrentHashMap.with_options capacity hash_builder bdefault concurrency_level }

/-- `ConcurrentHashSet::insert`: `true` iff the backing map's `insert` returned
no previous value (`is_none`). -/
def insert (hashOf : B → K → Nat) (s : ConcurrentHashSet K B) (k : K) :
    ConcurrentHashSet K B × Bool :=
  let r := s.table.insert hashOf k ()
  ({ table := r.1 }, r.2.isNone)

/-- `ConcurrentHashSet::contains`: delegate to the backing map. -/
def contains (hashOf : B → K → Nat) (s : ConcurrentHashSet K B) (k : K) : Bool :=
  s.table.contains hashOf k

/-- `ConcurrentHashSet::remove`: `true` iff the backing map removed a value. -/
def remove (hashOf : B → K → Nat) (s : ConcurrentHashSet K B) (k : K) :
    ConcurrentHashSet K B × Bool :=
  let r := s.table.remove hashOf k
  ({ table := r.1 }, r.2.isSome)

/-- `ConcurrentHashSet::into_iter`: the key-only projection of the map's
draining iterator. -/
def into_iter (s : ConcurrentHashSet K B) : List K :=
  s.table.into_iter.map Prod.fst

end ConcurrentHashSet

/-! ### Lemmas about the association-list tables -/

theorem assocGet?_insert_self (l : List (K × V)) (k : K) (v : V) :
    assocGet? (assocInsert l k v) k = some v := by
  induction l with
  | nil => simp [assocInsert, assocGet?]
  | cons hd tl ih =>
    obtain ⟨k0, v0⟩ := hd
    by_cases h : k0 = k <;> simp [assocInsert, assocGet?, h, ih]

theorem assocGet?_eq_none_of_not_mem (l : List (K × V)) (k : K)
    (h : k ∉ l.map Prod.fst) : assocGet? l k = none := by
  induction l with
  | nil => rfl
  | cons hd tl ih =>
    obtain ⟨k0, v0⟩ := hd
    simp only [List.map_cons, List.mem_cons, not_or] at h
    rw [assocGet?.eq_def]
    simp only [if_neg (fun hk : k0 = k => h.1 hk.symm)]
    exact ih h.2

theorem assocRemove_of_get?_none (l : List (K × V)) (k : K)
    (h : assocGet? l k = none) : assocRemove l k = l := by
  induction l with
  | nil => rfl
  | cons hd tl ih =>
    obtain ⟨k0, v0⟩ := hd
    by_cases hk : k0 = k
    · simp [assocGet?, hk] at h
    · simp only [assocGet?, hk, if_false] at h
      simp [assocRemove, hk, ih h]

theorem assocGet?_remove_self (l : List (K × V)) (k : K)
    (h : (l.map Prod.fst).Nodup) : assocGet? (assocRemove l k) k = none := by
  induction l with
  | nil => rfl
  | cons hd tl ih =>
    obtain ⟨k0, v0⟩ := hd
    simp only [List.map_cons, List.nodup_cons] at h
    by_cases hk : k0 = k
    · subst hk
      simpa [assocRemove] using assocGet?_eq_none_of_not_mem tl k0 h.1
    · simp [assocRemove, assocGet?, hk, ih h.2]

theorem assocGet?_eq_some_of_mem (l : List (K × V)) (k : K) (v : V)
    (hn : (l.map Prod.fst).Nodup) (hm : (k, v) ∈ l) : assocGet? l k = some v := by
  induction l with
  | nil => simp at hm
  | cons hd tl ih =>
    obtain ⟨k0, v0⟩ := hd
    simp only [List.map_cons, List.nodup_cons] at hn
    rcases List.mem_cons.mp hm with heq | htl
    · simp only [Prod.mk.injEq] at heq
      obtain ⟨rfl, rfl⟩ := heq
      simp [assocGet?]
    · have hne : k0 ≠ k := by
        intro hk
        exact hn.1 (hk ▸ (List.mem_map.mpr ⟨(k, v), htl, rfl⟩))
      simp [assocGet?, hne, ih hn.2 htl]

theorem mem_of_assocGet?_eq_some (l : List (K × V)) (k : K) (v : V)
    (h : assocGet? l k = some v) : (k, v) ∈ l := by
  induction l with
  | nil => simp [assocGet?] at h
  | cons hd tl ih =>
    obtain ⟨k0, v0⟩ := hd
    by_cases hk : k0 = k
    · subst hk
      simp [assocGet?] at h
      exact h ▸ List.mem_cons_self ..
    · simp only [assocGet?, hk, if_false] at h
      exact List.mem_cons_of_mem _ (ih h)

/-! ### Lemmas about routing -/

theorem ctzFuel_two_pow (fuel k : Nat) (hk : k ≤ fuel) :
    ctzFuel fuel (2 ^ k) = k := by
  induction fuel generalizing k with
  | zero =>
    have hk0 : k = 0 := by omega
    subst hk0
    rfl
  | succ fuel ih =>
    cases k with
    | zero => simp [ctzFuel]
    | succ j =>
      have hcond : ¬(2 ^ (j + 1) = 0 ∨ 2 ^ (j + 1) % 2 = 1) := by
        push_neg
        refine ⟨by positivity, ?_⟩
        rw [Nat.pow_succ, Nat.mul_mod_left]
        omega
      have hdiv : 2 ^ (j + 1) / 2 = 2 ^ j := by
        rw [Nat.pow_succ, Nat.mul_div_cancel _ (by omega)]
      simp only [ctzFuel, if_neg hcond, hdiv]
      rw [ih j (by omega)]

theorem usizeTrailingZeros_two_pow (k : Nat) (hk : k ≤ 64) :
    usizeTrailingZeros (2 ^ k) = k := by
  rw [usizeTrailingZeros, if_neg (by positivity)]
  exact ctzFuel_two_pow 64 k hk

theorem npotGo_isPowerOfTwo (n fuel i : Nat) :
    ∃ k, npotGo n fuel (2 ^ i) = 2 ^ k := by
  induction fuel generalizing i with
  | zero => exact ⟨i, rfl⟩
  | succ fuel ih =>
    by_cases h : 2 ^ i < n
    · obtain ⟨k, hk⟩ := ih (i + 1)
      refine ⟨k, ?_⟩
      simpa [npotGo, h, Nat.pow_succ] using hk
    · exact ⟨i, by simp [npotGo, h]⟩

theorem le_npotGo (n fuel power : Nat) (h : n ≤ power * 2 ^ fuel) :
    n ≤ npotGo n fuel power := by
  induction fuel generalizing power with
  | zero => simpa using h
  | succ fuel ih =>
    by_cases hlt : power < n
    · simp only [npotGo, if_pos hlt]
      refine ih (power * 2) ?_
      have hrw : power * 2 ^ (fuel + 1) = power * 2 * 2 ^ fuel := by ring
      omega
    · simp only [npotGo, if_neg hlt]
      omega

theorem npotGo_le_two_pow (n fuel i j : Nat) (hij : i ≤ j) (hn : n ≤ 2 ^ j) :
    npotGo n fuel (2 ^ i) ≤ 2 ^ j := by
  induction fuel generalizing i with
  | zero => exact Nat.pow_le_pow_right (by omega) hij
  | succ fuel ih =>
    by_cases hlt : 2 ^ i < n
    · have hij2 : i + 1 ≤ j := by
      -- informal: 2^i < n ≤ 2^j forces i < j
        have hlt2 : 2 ^ i < 2 ^ j := lt_of_lt_of_le hlt hn
        by_contra hcon
        have hji : j ≤ i := by omega
        exact absurd hlt2 (not_lt.mpr (Nat.pow_le_pow_right (by omega) hji))
      simp only [npotGo, if_pos hlt]
      rw [show 2 ^ i * 2 = 2 ^ (i + 1) from (Nat.pow_succ 2 i).symm]
      exact ih (i + 1) hij2
    · simp only [npotGo, if_neg hlt]
      exact Nat.pow_le_pow_right (by omega) hij

theorem nextPowerOfTwo_isPowerOfTwo (n : Nat) :
    ∃ k, nextPowerOfTwo n = 2 ^ k := by
  simpa [nextPowerOfTwo] using npotGo_isPowerOfTwo n n 0

theorem le_nextPowerOfTwo (n : Nat) : n ≤ nextPowerOfTwo n :=
  le_npotGo n n 1 (by simpa using Nat.le_of_lt (Nat.lt_two_pow n))

theorem nextPowerOfTwo_le (n j : Nat) (h : n ≤ 2 ^ j) :
    nextPowerOfTwo n ≤ 2 ^ j := by
  simpa [nextPowerOfTwo] using npotGo_le_two_pow n n 0 j (Nat.zero_le j) h

theorem nextPowerOfTwo_pos (n : Nat) : 0 < nextPowerOfTwo n := by
  obtain ⟨k, hk⟩ := nextPowerOfTwo_isPowerOfTwo n
  rw [hk]
  positivity

theorem ConcurrentHashMap.get_segment_lt (m : ConcurrentHashMap K V B) (h : Nat)
    (hlen : 0 < m.segments.length) :
    m.get_segment h < m.segments.length := by
  have hle : m.get_segment h ≤ m.segments.length - 1 := Nat.and_le_right
  omega

/-! ### Observable behaviour of the core operations -/

namespace ConcurrentHashMap

theorem get_segment_set (m : ConcurrentHashMap K V B) (i : Nat)
    (seg : HashMapM K V B) (h : Nat) :
    (ConcurrentHashMap.mk (m.segments.set i seg) m.hash_builder).get_segment h
      = m.get_segment h := by
  simp [ConcurrentHashMap.get_segment]

theorem hash_set (hashOf : B → K → Nat) (m : ConcurrentHashMap K V B) (i : Nat)
    (seg : HashMapM K V B) (k : K) :
    (ConcurrentHashMap.mk (m.segments.set i seg) m.hash_builder).hash hashOf k
      = m.hash hashOf k := rfl

/-- `contains` is `get` followed by `is_some`: both route identically and read
the same table. -/
theorem contains_eq_isSome_get (hashOf : B → K → Nat)
    (m : ConcurrentHashMap K V B) (k : K) :
    m.contains hashOf k = (m.get hashOf k).isSome := by
  simp only [ConcurrentHashMap.contains, ConcurrentHashMap.get]
  cases hseg : m.segments[m.get_segment (m.hash hashOf k)]? <;> simp

/-- The previous value returned by `insert` is what `get` observed before. -/
theorem insert_snd_eq_get (hashOf : B → K → Nat) (m : ConcurrentHashMap K V B)
    (k : K) (v : V) :
    (m.insert hashOf k v).2 = m.get hashOf k := by
  simp only [ConcurrentHashMap.insert, ConcurrentHashMap.get]
  cases hseg : m.segments[m.get_segment (m.hash hashOf k)]? <;> simp

/-- After `insert`, `get` on the same key sees the new value. -/
theorem get_insert_self (hashOf : B → K → Nat) (m : ConcurrentHashMap K V B)
    (k : K) (v : V) (hlen : 0 < m.segments.length) :
    (m.insert hashOf k v).1.get hashOf k = some v := by
  have hi : m.get_segment (m.hash hashOf k) < m.segments.length :=
    m.get_segment_lt _ hlen
  simp only [ConcurrentHashMap.insert, List.getElem?_eq_getElem hi]
  simp only [ConcurrentHashMap.get, get_segment_set, hash_set,
    List.getElem?_set_self hi]
  exact assocGet?_insert_self ..

/-- The value returned by `remove` is what `get` observed before. -/
theorem remove_snd_eq_get (hashOf : B → K → Nat) (m : ConcurrentHashMap K V B)
    (k : K) :
    (m.remove hashOf k).2 = m.get hashOf k := by
  simp only [ConcurrentHashMap.remove, ConcurrentHashMap.get]
  cases hseg : m.segments[m.get_segment (m.hash hashOf k)]? <;> simp

/-- After `remove`, `get` on the same key sees nothing (the routed segment's
table has distinct keys). -/
theorem get_remove_self (hashOf : B → K → Nat) (m : ConcurrentHashMap K V B)
    (k : K) (hwf : m.WF) :
    (m.remove hashOf k).1.get hashOf k = none := by
  have hi : m.get_segment (m.hash hashOf k) < m.segments.length :=
    m.get_segment_lt _ hwf.1
  simp only [ConcurrentHashMap.remove, List.getElem?_eq_getElem hi]
  simp only [ConcurrentHashMap.get, get_segment_set, hash_set,
    List.getElem?_set_self hi]
  exact assocGet?_remove_self _ _
    (hwf.2 _ (List.getElem_mem hi))

/-- `contains` returning `false` means `get` observes nothing. -/
theorem get_eq_none_of_contains_eq_false (hashOf : B → K → Nat)
    (m : ConcurrentHashMap K V B) (k : K) (h : m.contains hashOf k = false) :
    m.get hashOf k = none := by
  rw [contains_eq_isSome_get] at h
  cases hg : m.get hashOf k with
  | none => rfl
  | some v => rw [hg] at h; simp at h

end ConcurrentHashMap

theorem list_set_self {α : Type} (l : List α) (i : Nat) (h : i < l.length) :
    l.set i l[i] = l := by
  induction l generalizing i with
  | nil => rfl
  | cons hd tl ih =>
    cases i with
    | zero => rfl
    | succ j => simpa using ih j (by simpa using h)

/-- Multiplicity of a `(key, value)` pair in a drained entry list. -/
def countPair [DecidableEq V] (l : List (K × V)) (kv : K × V) : Nat :=
  match l with
  | [] => 0
  | x :: rest => (if x = kv then 1 else 0) + countPair rest kv

theorem countPair_append [DecidableEq V] (l1 l2 : List (K × V)) (kv : K × V) :
    countPair (l1 ++ l2) kv = countPair l1 kv + countPair l2 kv := by
  induction l1 with
  | nil => simp [countPair]
  | cons hd tl ih =>
    simp only [List.cons_append, countPair, List.append_eq, ih]
    omega

theorem countPair_flatten [DecidableEq V] (L : List (List (K × V)))
    (kv : K × V) :
    countPair L.flatten kv = (L.map (fun l => countPair l kv)).sum := by
  induction L with
  | nil => rfl
  | cons hd tl ih =>
    simp [List.flatten_cons, countPair_append, ih]

theorem countPair_eq_zero [DecidableEq V] (l : List (K × V)) (kv : K × V)
    (h : kv ∉ l) : countPair l kv = 0 := by
  induction l with
  | nil => rfl
  | cons hd tl ih =>
    simp only [List.mem_cons, not_or] at h
    rw [countPair, if_neg (fun he => h.1 he.symm), ih h.2]

theorem countPair_eq_one_of_nodup [DecidableEq V] (l : List (K × V))
    (kv : K × V) (hnd : l.Nodup) (hm : kv ∈ l) : countPair l kv = 1 := by
  induction l with
  | nil => simp at hm
  | cons hd tl ih =>
    rw [List.nodup_cons] at hnd
    rcases List.mem_cons.mp hm with rfl | htl
    · rw [countPair, if_pos rfl, countPair_eq_zero tl kv hnd.1]
    · have hne : hd ≠ kv := fun he => hnd.1 (he ▸ htl)
      rw [countPair, if_neg hne, ih hnd.2 htl]

/-- Summing a function over a list in which it vanishes everywhere except at
index `i` gives its value at index `i`. -/
theorem sum_map_eq_of_zero_off {α : Type} (f : α → Nat) (l : List α) (i : Nat)
    (hi : i < l.length)
    (h : ∀ j, (hj : j < l.length) → j ≠ i → f (l.get ⟨j, hj⟩) = 0) :
    (l.map f).sum = f (l.get ⟨i, hi⟩) := by
  induction l generalizing i with
  | nil => simp at hi
  | cons hd tl ih =>
    cases i with
    | zero =>
      simp only [List.map_cons, List.sum_cons, List.get_eq_getElem,
        List.getElem_cons_zero]
      have hz : (tl.map f).sum = 0 := by
        apply List.sum_eq_zero
        intro x hx
        obtain ⟨a, ha, rfl⟩ := List.mem_map.mp hx
        obtain ⟨j, hj, hja⟩ := List.mem_iff_getElem.mp ha
        have := h (j + 1) (by simp; omega) (by omega)
        simp only [List.get_eq_getElem, List.getElem_cons_succ] at this
        rw [← hja]
        exact this
      omega
    | succ j =>
      have hj : j < tl.length := by
        simp only [List.length_cons] at hi
        omega
      have h0 : f hd = 0 := by
        have := h 0 (by simp) (by omega)
        simpa using this
      have hrec := ih j hj (fun j2 hj2 hne => by
        have := h (j2 + 1) (by simp; omega) (by omega)
        simpa using this)
      simp only [List.map_cons, List.sum_cons, List.get_eq_getElem,
        List.getElem_cons_succ]
      simp only [List.get_eq_getElem] at hrec
      omega

/-! ### The claims -/

/-- C1: for every map with `N = 2 ^ k` segments (`k ≤ 64`) and every 64-bit
hash, the segment index is the top `log2 N` bits of the hash — the hash shifted
right by `64 - k` and masked with `N - 1`, which equals division by
`2 ^ (64 - k)` — and the index lies in `[0, N)`. -/
theorem C1_segment_index_top_bits {K V B : Type} (m : ConcurrentHashMap K V B)
    (k : Nat) (hk : k ≤ 64) (hN : m.segments.length = 2 ^ k) (h : Nat) :
    m.get_segment h = ((h % 2 ^ 64) >>> (64 - k)) &&& (2 ^ k - 1) ∧
    m.get_segment h = (h % 2 ^ 64) / 2 ^ (64 - k) ∧
    m.get_segment h < 2 ^ k := by
  have e1 : m.get_segment h = ((h % 2 ^ 64) >>> (64 - k)) &&& (2 ^ k - 1) := by
    unfold ConcurrentHashMap.get_segment
    rw [hN, usizeTrailingZeros_two_pow k hk]
  have hdiv_lt : (h % 2 ^ 64) / 2 ^ (64 - k) < 2 ^ k := by
    rw [Nat.div_lt_iff_lt_mul (Nat.pos_pow_of_pos _ (by omega))]
    calc h % 2 ^ 64 < 2 ^ 64 := Nat.mod_lt _ (by positivity)
      _ ≤ 2 ^ k * 2 ^ (64 - k) := by
          rw [← pow_add]
          exact Nat.pow_le_pow_right (by omega) (by omega)
  have e2 : ((h % 2 ^ 64) >>> (64 - k)) &&& (2 ^ k - 1) =
      (h % 2 ^ 64) / 2 ^ (64 - k) := by
    rw [Nat.shiftRight_eq_div_pow, Nat.and_pow_two_sub_one_eq_mod,
      Nat.mod_eq_of_lt hdiv_lt]
  exact ⟨e1, e1.trans e2, (e1.trans e2) ▸ hdiv_lt⟩

/-- Witness for C1: a freshly constructed 4-segment map routes the hash
`3 * 2 ^ 62` (top two bits `11`) to segment 3. -/
theorem C1_segment_index_top_bits_witness :
    (2 ≤ 64 ∧
      (ConcurrentHashMap.with_options (K := Nat) (V := Nat) (B := Nat)
          0 0 0 4).segments.length = 2 ^ 2) ∧
    ((ConcurrentHashMap.with_options (K := Nat) (V := Nat) (B := Nat)
          0 0 0 4).get_segment (3 * 2 ^ 62) =
        ((3 * 2 ^ 62 % 2 ^ 64) >>> (64 - 2)) &&& (2 ^ 2 - 1) ∧
      (ConcurrentHashMap.with_options (K := Nat) (V := Nat) (B := Nat)
          0 0 0 4).get_segment (3 * 2 ^ 62) =
        (3 * 2 ^ 62 % 2 ^ 64) / 2 ^ (64 - 2) ∧
      (ConcurrentHashMap.with_options (K := Nat) (V := Nat) (B := Nat)
          0 0 0 4).get_segment (3 * 2 ^ 62) < 2 ^ 2) :=
  ⟨⟨by omega, by decide⟩,
    C1_segment_index_top_bits _ 2 (by omega) (by decide) (3 * 2 ^ 62)⟩

/-- C2 (amended): `with_options` stores the supplied hash configuration in the
map (where it is used for routing), but creates every segment's table with the
default hash configuration `<B as Default>::default()`, not the supplied one;
all segments share that same default configuration. -/
theorem C2_hashers_amended {K V B : Type} (capacity : Nat) (b bd : B)
    (concurrency_level : Nat) :
    (ConcurrentHashMap.with_options (K := K) (V := V)
        capacity b bd concurrency_level).hash_builder = b ∧
    ∀ seg ∈ (ConcurrentHashMap.with_options (K := K) (V := V)
        capacity b bd concurrency_level).segments,
      seg.hash_builder = bd := by
  refine ⟨rfl, fun seg hseg => ?_⟩
  simp only [ConcurrentHashMap.with_options] at hseg
  rw [List.eq_of_mem_replicate hseg]

/-- C2 counterexample: with `B = Nat`, supplied builder 1 and default builder
0, a constructed map's segments do not carry the builder stored in the map. -/
theorem C2_shared_hasher_counterexample :
    ¬ ∀ seg ∈ (ConcurrentHashMap.with_options (K := Nat) (V := Nat) (B := Nat)
        4 1 0 4).segments,
      seg.hash_builder = (ConcurrentHashMap.with_options (K := Nat) (V := Nat)
        (B := Nat) 4 1 0 4).hash_builder := by
  decide

/-- C3 counterexample: at `concurrency_level = 2 ^ 63 + 1` the segment-count
rounding overflows `usize` and construction panics (debug: inside
`next_power_of_two`; release: computing `capacity / 0`), so no map is
produced — construction does not succeed for every concurrency level. -/
theorem C3_construction_fails_counterexample :
    ConcurrentHashMap.with_options_usize (K := Nat) (V := Nat) (B := Nat)
      0 0 0 (2 ^ 63 + 1) = none := by
  decide

/-- C3 (amended): for every capacity and every
`concurrency_level ≤ 2 ^ 63` — the inputs whose segment-count rounding fits
in `usize` — construction succeeds and the map has at least one segment; the
degenerate inputs (capacity 0, concurrency level 0 or 1) lie within the
bound. -/
theorem C3_construction_total_amended {K V B : Type} (capacity : Nat)
    (b bd : B) (concurrency_level : Nat) (hcl : concurrency_level ≤ 2 ^ 63) :
    ∃ m : ConcurrentHashMap K V B,
      ConcurrentHashMap.with_options_usize capacity b bd concurrency_level
        = some m ∧ 0 < m.segments.length := by
  have hnz : ¬ usizeNextPowerOfTwo concurrency_level = 0 := by
    rw [usizeNextPowerOfTwo, if_pos hcl]
    exact Nat.pos_iff_ne_zero.mp (nextPowerOfTwo_pos _)
  refine ⟨⟨List.replicate (usizeNextPowerOfTwo concurrency_level)
      ⟨bd, usizeNextPowerOfTwo
        (capacity / usizeNextPowerOfTwo concurrency_level), []⟩, b⟩, ?_, ?_⟩
  · simp only [ConcurrentHashMap.with_options_usize]
    rw [if_neg hnz]
  · simp only [List.length_replicate]
    omega

/-- Witness for C3 (amended) at the degenerate input capacity 0,
concurrency level 0: one segment is still produced. -/
theorem C3_construction_total_amended_witness :
    (0 : Nat) ≤ 2 ^ 63 ∧
    ∃ m : ConcurrentHashMap Nat Nat Nat,
      ConcurrentHashMap.with_options_usize 0 0 0 0 = some m ∧
      0 < m.segments.length :=
  ⟨by decide, C3_construction_total_amended 0 0 0 0 (by decide)⟩

/-- C4 counterexample: at capacity `2 ^ 63 + 1` and concurrency level 1 the
single segment is created with capacity 0 (release wrapping of the overflowed
rounding; the debug profile panics), not the mathematical
`next_power_of_two(capacity / N)`, which is at least `2 ^ 63 + 1`. -/
theorem C4_construction_sizing_counterexample :
    ConcurrentHashMap.with_options_usize (K := Nat) (V := Nat) (B := Nat)
        (2 ^ 63 + 1) 0 0 1 =
      some ⟨[⟨0, 0, []⟩], 0⟩ ∧
    ¬ (0 : Nat) = nextPowerOfTwo ((2 ^ 63 + 1) / 1) := by
  constructor
  · decide
  · rw [Nat.div_one]
    have hle := le_nextPowerOfTwo (2 ^ 63 + 1)
    omega

/-- C4 (amended): whenever neither rounding overflows `usize`
(`concurrency_level ≤ 2 ^ 63` and `capacity / N ≤ 2 ^ 63`), construction
succeeds and produces the non-overflowing map: its segment count is
`concurrency_level` rounded up to the next power of two — a power of two
`≥ concurrency_level` and below every other power of two
`≥ concurrency_level` — and every segment's initial capacity is
`capacity / N` rounded up the same way. -/
theorem C4_construction_sizing_amended {K V B : Type} (capacity : Nat)
    (b bd : B) (concurrency_level : Nat)
    (hcl : concurrency_level ≤ 2 ^ 63)
    (hcap : capacity / nextPowerOfTwo concurrency_level ≤ 2 ^ 63) :
    ConcurrentHashMap.with_options_usize capacity b bd concurrency_level
      = some (ConcurrentHashMap.with_options (K := K) (V := V) capacity b bd
          concurrency_level) ∧
    (ConcurrentHashMap.with_options (K := K) (V := V) capacity b bd
        concurrency_level).segments.length = nextPowerOfTwo concurrency_level ∧
    (∃ k, nextPowerOfTwo concurrency_level = 2 ^ k) ∧
    concurrency_level ≤ nextPowerOfTwo concurrency_level ∧
    (∀ j, concurrency_level ≤ 2 ^ j →
      nextPowerOfTwo concurrency_level ≤ 2 ^ j) ∧
    ∀ seg ∈ (ConcurrentHashMap.with_options (K := K) (V := V) capacity b bd
        concurrency_level).segments,
      seg.capacity
          = nextPowerOfTwo (capacity / nextPowerOfTwo concurrency_level) ∧
      (∃ k, seg.capacity = 2 ^ k) ∧
      capacity / nextPowerOfTwo concurrency_level ≤ seg.capacity ∧
      ∀ j, capacity / nextPowerOfTwo concurrency_level ≤ 2 ^ j →
        seg.capacity ≤ 2 ^ j := by
  have hnz : ¬ nextPowerOfTwo concurrency_level = 0 :=
    Nat.pos_iff_ne_zero.mp (nextPowerOfTwo_pos _)
  have hlen : (ConcurrentHashMap.with_options (K := K) (V := V)
      capacity b bd concurrency_level).segments.length
      = nextPowerOfTwo concurrency_level := by
    simp [ConcurrentHashMap.with_options]
  refine ⟨?_, hlen, nextPowerOfTwo_isPowerOfTwo concurrency_level,
    le_nextPowerOfTwo concurrency_level,
    fun j hj => nextPowerOfTwo_le concurrency_level j hj,
    fun seg hseg => ?_⟩
  · simp only [ConcurrentHashMap.with_options_usize, usizeNextPowerOfTwo,
      if_pos hcl, if_pos hcap, if_neg hnz, ConcurrentHashMap.with_options]
  · simp only [ConcurrentHashMap.with_options] at hseg
    rw [List.eq_of_mem_replicate hseg]
    exact ⟨rfl, nextPowerOfTwo_isPowerOfTwo _, le_nextPowerOfTwo _,
      fun j hj => nextPowerOfTwo_le _ j hj⟩

/-- Witness for C4 (amended) at capacity 64, concurrency level 4: four
segments of capacity 16. -/
theorem C4_construction_sizing_amended_witness :
    ((4 : Nat) ≤ 2 ^ 63 ∧ (64 : Nat) / nextPowerOfTwo 4 ≤ 2 ^ 63) ∧
    (ConcurrentHashMap.with_options_usize (K := Nat) (V := Nat) (B := Nat)
        64 0 0 4
      = some (ConcurrentHashMap.with_options 64 0 0 4) ∧
    (ConcurrentHashMap.with_options (K := Nat) (V := Nat) (B := Nat)
        64 0 0 4).segments.length = nextPowerOfTwo 4 ∧
    (∃ k, nextPowerOfTwo 4 = 2 ^ k) ∧
    4 ≤ nextPowerOfTwo 4 ∧
    (∀ j, 4 ≤ 2 ^ j → nextPowerOfTwo 4 ≤ 2 ^ j) ∧
    ∀ seg ∈ (ConcurrentHashMap.with_options (K := Nat) (V := Nat) (B := Nat)
        64 0 0 4).segments,
      seg.capacity = nextPowerOfTwo (64 / nextPowerOfTwo 4) ∧
      (∃ k, seg.capacity = 2 ^ k) ∧
      64 / nextPowerOfTwo 4 ≤ seg.capacity ∧
      ∀ j, 64 / nextPowerOfTwo 4 ≤ 2 ^ j → seg.capacity ≤ 2 ^ j) :=
  ⟨⟨by decide, by decide⟩,
    C4_construction_sizing_amended 64 0 0 4 (by decide) (by decide)⟩

/-- C5: inserting a key that is not present returns `None`, and inserting the
same key again returns the value stored by the first insert. -/
theorem C5_insert_returns_previous {K V B : Type} [DecidableEq K]
    (hashOf : B → K → Nat) (m : ConcurrentHashMap K V B) (k : K) (v1 v2 : V)
    (hlen : 0 < m.segments.length) (habs : m.contains hashOf k = false) :
    (m.insert hashOf k v1).2 = none ∧
    ((m.insert hashOf k v1).1.insert hashOf k v2).2 = some v1 := by
  refine ⟨?_, ?_⟩
  · rw [ConcurrentHashMap.insert_snd_eq_get,
      ConcurrentHashMap.get_eq_none_of_contains_eq_false hashOf m k habs]
  · rw [ConcurrentHashMap.insert_snd_eq_get]
    exact ConcurrentHashMap.get_insert_self hashOf m k v1 hlen

/-- Witness for C5: on a fresh 2-segment map with identity hashing, inserting
key 5 returns `none` and re-inserting it returns the stored 10. -/
theorem C5_insert_returns_previous_witness :
    (0 < (ConcurrentHashMap.with_options (K := Nat) (V := Nat) (B := Nat)
          0 0 0 2).segments.length ∧
      (ConcurrentHashMap.with_options (K := Nat) (V := Nat) (B := Nat)
          0 0 0 2).contains (fun _ k => k) 5 = false) ∧
    (((ConcurrentHashMap.with_options (K := Nat) (V := Nat) (B := Nat)
          0 0 0 2).insert (fun _ k => k) 5 10).2 = none ∧
      (((ConcurrentHashMap.with_options (K := Nat) (V := Nat) (B := Nat)
          0 0 0 2).insert (fun _ k => k) 5 10).1.insert
        (fun _ k => k) 5 20).2 = some 10) :=
  ⟨⟨by decide, by decide⟩,
    C5_insert_returns_previous (fun _ k => k) _ 5 10 20 (by decide) (by decide)⟩

/-- C6: `insert_or_update(k, make_value, update_value)` runs `make_value`
exactly once and stores its result when `k` is absent, and runs `update_value`
exactly once on the stored value when `k` is present; exactly one of the two
closures runs.  Invocation counts are observed by threading a pair of counters
through the closures' side effects. -/
theorem C6_insert_or_update_exactly_once {K V B : Type} [DecidableEq K]
    (hashOf : B → K → Nat) (m : ConcurrentHashMap K V B) (k : K)
    (f : Unit → V) (g : V → V) (hlen : 0 < m.segments.length) :
    let r := m.insert_or_update hashOf k
        (fun c => (f (), (c.1 + 1, c.2)))
        (fun v c => (g v, (c.1, c.2 + 1))) ((0, 0) : Nat × Nat)
    (m.get hashOf k = none →
      r.2 = (1, 0) ∧ r.1.get hashOf k = some (f ())) ∧
    (∀ v, m.get hashOf k = some v →
      r.2 = (0, 1) ∧ r.1.get hashOf k = some (g v)) := by
  have hi : m.get_segment (ConcurrentHashMap.hash hashOf m k) < m.segments.length :=
    m.get_segment_lt _ hlen
  refine ⟨fun habs => ?_, fun v hv => ?_⟩
  · have hseg_get :
        assocGet? (m.segments[m.get_segment (ConcurrentHashMap.hash hashOf m k)]).entries k
          = none := by
      simpa [ConcurrentHashMap.get, List.getElem?_eq_getElem hi] using habs
    simp only [ConcurrentHashMap.insert_or_update, List.getElem?_eq_getElem hi,
      hseg_get]
    refine ⟨by trivial, ?_⟩
    simp only [ConcurrentHashMap.get, ConcurrentHashMap.get_segment_set,
      ConcurrentHashMap.hash_set, List.getElem?_set_self hi]
    exact assocGet?_insert_self ..
  · have hseg_get :
        assocGet? (m.segments[m.get_segment (ConcurrentHashMap.hash hashOf m k)]).entries k
          = some v := by
      simpa [ConcurrentHashMap.get, List.getElem?_eq_getElem hi] using hv
    simp only [ConcurrentHashMap.insert_or_update, List.getElem?_eq_getElem hi,
      hseg_get]
    refine ⟨by trivial, ?_⟩
    simp only [ConcurrentHashMap.get, ConcurrentHashMap.get_segment_set,
      ConcurrentHashMap.hash_set, List.getElem?_set_self hi]
    exact assocGet?_insert_self ..

/-- Witness for C6: on a map holding `(5, 10)`, upserting key 5 with
`make_value = fun _ => 100` and `update_value = (+1)` runs only the update
(counters `(0, 1)`), and upserting the absent key 6 runs only the constructor
(counters `(1, 0)`). -/
theorem C6_insert_or_update_exactly_once_witness :
    (0 < ((ConcurrentHashMap.with_options (K := Nat) (V := Nat) (B := Nat)
          0 0 0 2).insert (fun _ k => k) 5 10).1.segments.length) ∧
    (let r := ((ConcurrentHashMap.with_options (K := Nat) (V := Nat) (B := Nat)
          0 0 0 2).insert (fun _ k => k) 5 10).1.insert_or_update
        (fun _ k => k) 5
        (fun c => ((fun _ : Unit => 100) (), (c.1 + 1, c.2)))
        (fun v c => ((fun v => v + 1) v, (c.1, c.2 + 1))) ((0, 0) : Nat × Nat) ;
      (((ConcurrentHashMap.with_options (K := Nat) (V := Nat) (B := Nat)
          0 0 0 2).insert (fun _ k => k) 5 10).1.get (fun _ k => k) 5 = none →
        r.2 = (1, 0) ∧ r.1.get (fun _ k => k) 5 = some ((fun _ : Unit => 100) ())) ∧
      (∀ v, ((ConcurrentHashMap.with_options (K := Nat) (V := Nat) (B := Nat)
          0 0 0 2).insert (fun _ k => k) 5 10).1.get (fun _ k => k) 5 = some v →
        r.2 = (0, 1) ∧ r.1.get (fun _ k => k) 5 = some ((fun v => v + 1) v))) :=
  ⟨by decide,
    C6_insert_or_update_exactly_once (fun _ k => k) _ 5
      (fun _ => 100) (fun v => v + 1) (by decide)⟩

/-- C7: in a sequential execution, after `remove(k)` completes, `contains(k)`
is `false` and `get(k)` returns `None`, for every well-formed map. -/
theorem C7_remove_then_absent {K V B : Type} [DecidableEq K]
    (hashOf : B → K → Nat) (m : ConcurrentHashMap K V B) (k : K)
    (hwf : m.WF) :
    (m.remove hashOf k).1.contains hashOf k = false ∧
    (m.remove hashOf k).1.get hashOf k = none := by
  have hg := ConcurrentHashMap.get_remove_self hashOf m k hwf
  refine ⟨?_, hg⟩
  rw [ConcurrentHashMap.contains_eq_isSome_get, hg]
  rfl

/-- Witness for C7: removing key 5 from a map holding `(5, 10)` leaves
`contains 5 = false` and `get 5 = none`. -/
theorem C7_remove_then_absent_witness :
    (((ConcurrentHashMap.with_options (K := Nat) (V := Nat) (B := Nat)
          0 0 0 2).insert (fun _ k => k) 5 10).1.WF ∧ True) ∧
    ((((ConcurrentHashMap.with_options (K := Nat) (V := Nat) (B := Nat)
          0 0 0 2).insert (fun _ k => k) 5 10).1.remove
        (fun _ k => k) 5).1.contains (fun _ k => k) 5 = false ∧
      (((ConcurrentHashMap.with_options (K := Nat) (V := Nat) (B := Nat)
          0 0 0 2).insert (fun _ k => k) 5 10).1.remove
        (fun _ k => k) 5).1.get (fun _ k => k) 5 = none) :=
  ⟨⟨by decide, trivial⟩,
    C7_remove_then_absent (fun _ k => k) _ 5 (by decide)⟩

/-- C10: removing a key that is not present returns `None` and leaves the map
— including every segment's contents — unchanged. -/
theorem C10_remove_absent_noop {K V B : Type} [DecidableEq K]
    (hashOf : B → K → Nat) (m : ConcurrentHashMap K V B) (k : K)
    (hlen : 0 < m.segments.length) (habs : m.contains hashOf k = false) :
    m.remove hashOf k = (m, none) := by
  have hi : m.get_segment (m.hash hashOf k) < m.segments.length :=
    m.get_segment_lt _ hlen
  have hget : m.get hashOf k = none :=
    ConcurrentHashMap.get_eq_none_of_contains_eq_false hashOf m k habs
  have hseg_get :
      assocGet? (m.segments[m.get_segment (m.hash hashOf k)]).entries k
        = none := by
    simpa [ConcurrentHashMap.get, List.getElem?_eq_getElem hi] using hget
  simp only [ConcurrentHashMap.remove, List.getElem?_eq_getElem hi, hseg_get]
  have hsegs : m.segments.set (m.get_segment (ConcurrentHashMap.hash hashOf m k))
      { m.segments[m.get_segment (ConcurrentHashMap.hash hashOf m k)] with
        entries := assocRemove
          (m.segments[m.get_segment (ConcurrentHashMap.hash hashOf m k)]).entries
          k }
      = m.segments := by
    rw [assocRemove_of_get?_none _ _ hseg_get]
    exact list_set_self _ _ hi
  rw [hsegs]

/-- C8: draining a consumed map visits the segments in index order
(`into_iter` is the flattening of the segments' tables in order) and yields
each `(key, value)` pair present in the map exactly once: a pair's
multiplicity in the drain is 1 when `get` observes it and 0 otherwise. -/
theorem C8_drain_exact {K V B : Type} [DecidableEq K] [DecidableEq V]
    (hashOf : B → K → Nat) (m : ConcurrentHashMap K V B)
    (hwf : m.WF) (hrt : m.Routed hashOf) (k : K) (v : V) :
    m.into_iter = (m.segments.map (fun seg => seg.entries)).flatten ∧
    countPair m.into_iter (k, v) =
      if m.get hashOf k = some v then 1 else 0 := by
  refine ⟨rfl, ?_⟩
  have hi : m.get_segment (ConcurrentHashMap.hash hashOf m k) < m.segments.length :=
    m.get_segment_lt _ hwf.1
  have hnd := hwf.2 _ (List.getElem_mem hi)
  have hget : m.get hashOf k
      = assocGet? (m.segments[m.get_segment (ConcurrentHashMap.hash hashOf m k)]).entries k := by
    simp [ConcurrentHashMap.get, List.getElem?_eq_getElem hi]
  have hcount : countPair m.into_iter (k, v)
      = countPair ((m.segments[m.get_segment (ConcurrentHashMap.hash hashOf m k)]).entries)
          (k, v) := by
    rw [ConcurrentHashMap.into_iter, countPair_flatten, List.map_map]
    have := sum_map_eq_of_zero_off
      (fun seg => countPair seg.entries (k, v)) m.segments
      (m.get_segment (ConcurrentHashMap.hash hashOf m k)) hi
      (fun j hj hne => by
        apply countPair_eq_zero
        intro hmem
        simp only [List.get_eq_getElem] at hmem
        exact hne ((hrt j hj (k, v) hmem).symm))
    simp only [List.get_eq_getElem] at this
    simpa [Function.comp] using this
  rw [hcount, hget]
  by_cases hv : assocGet?
      (m.segments[m.get_segment (ConcurrentHashMap.hash hashOf m k)]).entries k
      = some v
  · rw [hv, if_pos rfl]
    exact countPair_eq_one_of_nodup _ _ (List.Nodup.of_map _ hnd)
      (mem_of_assocGet?_eq_some _ _ _ hv)
  · rw [if_neg hv]
    apply countPair_eq_zero
    intro hmem
    exact hv (assocGet?_eq_some_of_mem _ _ _ hnd hmem)

/-- Witness for C8: a 2-segment map holding `(5, 10)` drains to the
concatenation of its segment tables, in which the pair `(5, 10)` appears
exactly once. -/
theorem C8_drain_exact_witness :
    (((ConcurrentHashMap.with_options (K := Nat) (V := Nat) (B := Nat)
          0 0 0 2).insert (fun _ k => k) 5 10).1.WF ∧
      ((ConcurrentHashMap.with_options (K := Nat) (V := Nat) (B := Nat)
          0 0 0 2).insert (fun _ k => k) 5 10).1.Routed (fun _ k => k)) ∧
    (((ConcurrentHashMap.with_options (K := Nat) (V := Nat) (B := Nat)
          0 0 0 2).insert (fun _ k => k) 5 10).1.into_iter =
        ((((ConcurrentHashMap.with_options (K := Nat) (V := Nat) (B := Nat)
          0 0 0 2).insert (fun _ k => k) 5 10).1.segments.map
            (fun seg => seg.entries)).flatten) ∧
      countPair
        ((ConcurrentHashMap.with_options (K := Nat) (V := Nat) (B := Nat)
          0 0 0 2).insert (fun _ k => k) 5 10).1.into_iter (5, 10) =
        if ((ConcurrentHashMap.with_options (K := Nat) (V := Nat) (B := Nat)
          0 0 0 2).insert (fun _ k => k) 5 10).1.get (fun _ k => k) 5 = some 10
        then 1 else 0) :=
  ⟨⟨by decide, by decide⟩,
    C8_drain_exact (fun _ k => k) _ (by decide) (by decide) 5 10⟩

/-- C9: the set's `insert(k)` returns `true` exactly when `k` was not already
present; and the concrete scenario: a set built from `[1, 2, 2, 3]` contains
exactly the keys 1, 2, 3 (its drain is a permutation of `[1, 2, 3]`),
`insert 2` on it returns `false`, and `insert 4` returns `true`. -/
theorem C9_set_insert_returns_new :
    (∀ (K B : Type) (_ : DecidableEq K) (hashOf : B → K → Nat)
        (s : ConcurrentHashSet K B) (k : K),
      (s.insert hashOf k).2 = true ↔ s.contains hashOf k = false) ∧
    (let s0 := List.foldl
        (fun (s : ConcurrentHashSet Nat Nat) (n : Nat) =>
          (s.insert (fun _ k => k) n).1)
        (ConcurrentHashSet.with_options 0 0 0 4) [1, 2, 2, 3] ;
      s0.contains (fun _ k => k) 1 = true ∧
      s0.contains (fun _ k => k) 2 = true ∧
      s0.contains (fun _ k => k) 3 = true ∧
      s0.contains (fun _ k => k) 0 = false ∧
      s0.contains (fun _ k => k) 4 = false ∧
      s0.into_iter.Perm [1, 2, 3] ∧
      (s0.insert (fun _ k => k) 2).2 = false ∧
      (s0.insert (fun _ k => k) 4).2 = true) := by
  constructor
  · intro K B instK hashOf s k
    simp only [ConcurrentHashSet.insert, ConcurrentHashSet.contains,
      ConcurrentHashMap.insert_snd_eq_get, ConcurrentHashMap.contains_eq_isSome_get]
    cases s.table.get hashOf k <;> simp
  · decide

/-- Witness for C10: removing key 7 (absent) from a map holding `(5, 10)`
returns the map unchanged together with `none`. -/
theorem C10_remove_absent_noop_witness :
    (0 < ((ConcurrentHashMap.with_options (K := Nat) (V := Nat) (B := Nat)
          0 0 0 2).insert (fun _ k => k) 5 10).1.segments.length ∧
      ((ConcurrentHashMap.with_options (K := Nat) (V := Nat) (B := Nat)
          0 0 0 2).insert (fun _ k => k) 5 10).1.contains
        (fun _ k => k) 7 = false) ∧
    (((ConcurrentHashMap.with_options (K := Nat) (V := Nat) (B := Nat)
          0 0 0 2).insert (fun _ k => k) 5 10).1.remove (fun _ k => k) 7 =
      (((ConcurrentHashMap.with_options (K := Nat) (V := Nat) (B := Nat)
          0 0 0 2).insert (fun _ k => k) 5 10).1, none)) :=
  ⟨⟨by decide, by decide⟩,
    C10_remove_absent_noop (fun _ k => k) _ 7 (by decide) (by decide)⟩

end Poirot
